import Mathlib

/-!
Verification development for the linalg transformation unit
(`examples/Linalg/Linalg3/lib/Transforms.cpp`): affine-expression folding,
composed affine application, range derivation with optional tiling, loop-nest
synthesis, and the slice-composition pass.

Machine integers (`int64_t` values carried by constant-index operations and
affine constants) are modelled as `Int`; the source never performs wrapping
arithmetic on them in the fragment under study.
-/

namespace Linalg

/-- Affine expressions: the tagged variant {dimension-reference,
symbol-reference, constant, composite}.  Composite expressions are the
linear(+constant) combinations the affine algebra builds: sums and products. -/
inductive AffineExpr where
  | dim (pos : Nat)
  | sym (pos : Nat)
  | cst (val : Int)
  | add (lhs rhs : AffineExpr)
  | mul (lhs rhs : AffineExpr)
deriving DecidableEq, Repr

/-- An affine map: dimension count, symbol count, and result expressions
(`AffineMap::get(numDims, numSymbols, results, {})`). -/
structure AffineMap where
  numDims : Nat
  numSymbols : Nat
  results : List AffineExpr
deriving DecidableEq, Repr

/-- `map.getNumResults()`. -/
def AffineMap.numResults (m : AffineMap) : Nat := m.results.length

/-- `map.getResult(0)`, total with a default that is only read when the map
has no result at all. -/
def AffineMap.headExpr (m : AffineMap) : AffineExpr := m.results.headD (.cst 0)

/-- SSA values of index type: an opaque leaf (loop induction variable,
function argument, or any non-affine-derived computation), the result of a
`ConstantIndexOp`, or the single result of an `AffineApplyOp` applying a map
to operand values. -/
inductive Value where
  | leaf (id : Nat)
  | cst (v : Int)
  | apply (m : AffineMap) (operands : List Value)
deriving Repr

/-- Evaluate an affine expression over one flat operand-value list, the
source's operand convention: dimension `d` reads position `d`, symbol `s`
reads position `numDims + s`.  Out-of-range positions read 0 (the claims
are always used under in-range hypotheses). -/
def evalE (numDims : Nat) (vals : List Int) : AffineExpr → Int
  | .dim d => vals.getD d 0
  | .sym s => vals.getD (numDims + s) 0
  | .cst c => c
  | .add a b => evalE numDims vals a + evalE numDims vals b
  | .mul a b => evalE numDims vals a * evalE numDims vals b

mutual

/-- Semantics of a value under a concrete integer assignment `env` to the
opaque leaves: constants are themselves and an affine application evaluates
its map's first result over the evaluated operands. -/
def evalV (env : Nat → Int) : Value → Int
  | .leaf i => env i
  | .cst c => c
  | .apply m ops => evalE m.numDims (evalVList env ops) m.headExpr

/-- Pointwise `evalV` over an operand list. -/
def evalVList (env : Nat → Int) : List Value → List Int
  | [] => []
  | v :: vs => evalV env v :: evalVList env vs

end

theorem evalVList_eq_map (env : Nat → Int) (vs : List Value) :
    evalVList env vs = vs.map (evalV env) := by
  induction vs with
  | nil => rfl
  | cons v vs ih => simp [evalVList, ih]

/-- An expression mentions no symbol references. -/
def symFree : AffineExpr → Bool
  | .dim _ => true
  | .sym _ => false
  | .cst _ => true
  | .add a b => symFree a && symFree b
  | .mul a b => symFree a && symFree b

/-- Rewrite every symbol reference `s` into the dimension reference
`numDims + s`, mirroring the flat operand indexing convention. -/
def symToDim (numDims : Nat) : AffineExpr → AffineExpr
  | .dim d => .dim d
  | .sym s => .dim (numDims + s)
  | .cst c => .cst c
  | .add a b => .add (symToDim numDims a) (symToDim numDims b)
  | .mul a b => .mul (symToDim numDims a) (symToDim numDims b)

/-- Shift every dimension reference up by `k`. -/
def shiftDims (k : Nat) : AffineExpr → AffineExpr
  | .dim d => .dim (k + d)
  | .sym s => .sym s
  | .cst c => .cst c
  | .add a b => .add (shiftDims k a) (shiftDims k b)
  | .mul a b => .mul (shiftDims k a) (shiftDims k b)

/-- Substitute dimension `i` by `subs[i]` (missing entries become the
constant 0, matching the 0-default of `evalE`); symbols are untouched. -/
def substDims (subs : List AffineExpr) : AffineExpr → AffineExpr
  | .dim d => subs.getD d (.cst 0)
  | .sym s => .sym s
  | .cst c => .cst c
  | .add a b => .add (substDims subs a) (substDims subs b)
  | .mul a b => .mul (substDims subs a) (substDims subs b)

mutual

/-- Modelled from the spec: the flattening half of
`fullyComposeAffineMapAndOperands` (an external affine-algebra primitive,
not part of this file's source).  A value is flattened into a symbol-free
expression over a list of non-affine-derived operands: a leaf stays an
operand, a constant is inlined into the expression, and an affine
application inlines its own map over its recursively flattened operands. -/
def flattenVal : Value → AffineExpr × List Value
  | .leaf i => (.dim 0, [.leaf i])
  | .cst c => (.cst c, [])
  | .apply m ops =>
      let p := flattenList ops
      (substDims p.1 (symToDim m.numDims m.headExpr), p.2)

/-- Flatten each value of a list; the `i`-th returned expression addresses
the shared concatenated operand list, so later entries are dimension-shifted
past the operands contributed by earlier entries. -/
def flattenList : List Value → List AffineExpr × List Value
  | [] => ([], [])
  | v :: vs =>
      let p := flattenVal v
      let q := flattenList vs
      (p.1 :: q.1.map (shiftDims p.2.length), p.2 ++ q.2)

end

/-- Fatal precondition violations of the transformation unit (the spec's
error taxonomy; all correspond to `assert`/`cast` failures in the source). -/
inductive TransformErr where
  | arityMismatch
  | unsupportedMapShape
  | nonConstantFold
  | illegalStep
  | outOfBounds
  | unrecognizedOperand
deriving DecidableEq, Repr

/-- `tryFold` from the source: on a single-result map, a dimension reference
returns the operand at that position, a symbol reference the operand at
`numDims + s`, a constant materializes a constant-index value, and any other
shape signals "no fold" (`.ok none`).  The source's
`assert(map.getNumResults() == 1)` is the `arityMismatch` error; an
out-of-range operand read (undefined behaviour in C++) is `outOfBounds`. -/
def tryFold (map : AffineMap) (operands : List Value) :
    Except TransformErr (Option Value) :=
  match map.results with
  | [e] =>
    match e with
    | .dim d =>
      match operands.get? d with
      | some v => .ok (some v)
      | none => .error .outOfBounds
    | .sym s =>
      match operands.get? (map.numDims + s) with
      | some v => .ok (some v)
      | none => .error .outOfBounds
    | .cst c => .ok (some (.cst c))
    | _ => .ok none
  | _ => .error .arityMismatch

/-- Full composition of a map with its operands: flatten every operand and
substitute the flattened sub-expressions into the map's single result,
yielding a symbol-free expression over the concatenated non-affine-derived
operands.  Modelled from the spec's description of
`fullyComposeAffineMapAndOperands`. -/
def composeMapOperands (map : AffineMap) (operands : List Value) :
    AffineExpr × List Value :=
  let q := flattenList operands
  (substDims q.1 (symToDim map.numDims map.headExpr), q.2)

/-- The fold-or-emit tail of `makeFoldedComposedAffineApply`: try the
trivial fold on the composed single-result map, and otherwise create one new
`AffineApplyOp` carrying that map.  The error arm of `tryFold` is
unreachable on composed expressions (single result, symbol-free, in-scope
dimensions) and is mapped to the same fresh application. -/
def foldOrApply (e : AffineExpr) (ops : List Value) : Value :=
  match tryFold ⟨ops.length, 0, [e]⟩ ops with
  | .ok (some v) => v
  | _ => .apply ⟨ops.length, 0, [e]⟩ ops

/-- `makeFoldedComposedAffineApply` from the source: fully compose the map
and operands, try the trivial fold, and otherwise create one new
`AffineApplyOp` with the composed map. -/
def makeFoldedComposedAffineApply (map : AffineMap) (operands : List Value) :
    Value :=
  let c := composeMapOperands map operands
  foldOrApply c.1 c.2

/-- Number of fresh instructions created by one applicator call: a
dimension/symbol fold hands back an existing operand (0 instructions), a
constant fold materializes one `ConstantIndexOp`, and the no-fold path
creates one `AffineApplyOp`. -/
def appliedNewOps (map : AffineMap) (operands : List Value) : Nat :=
  match (composeMapOperands map operands).1 with
  | .dim _ => 0
  | .sym _ => 0
  | _ => 1

/-- All dimension references of an expression lie below `n` and no symbol
reference occurs: the expression is well-scoped over an `n`-element flat
operand list. -/
def scopedE (n : Nat) : AffineExpr → Bool
  | .dim d => decide (d < n)
  | .sym _ => false
  | .cst _ => true
  | .add a b => scopedE n a && scopedE n b
  | .mul a b => scopedE n a && scopedE n b

theorem evalE_symToDim (nd : Nat) (vals : List Int) (e : AffineExpr) :
    evalE nd vals (symToDim nd e) = evalE nd vals e := by
  induction e with
  | dim d => rfl
  | sym s => rfl
  | cst c => rfl
  | add a b iha ihb => simp [symToDim, evalE, iha, ihb]
  | mul a b iha ihb => simp [symToDim, evalE, iha, ihb]

theorem symFree_symToDim (nd : Nat) (e : AffineExpr) :
    symFree (symToDim nd e) = true := by
  induction e with
  | dim d => rfl
  | sym s => rfl
  | cst c => rfl
  | add a b iha ihb => simp [symToDim, symFree, iha, ihb]
  | mul a b iha ihb => simp [symToDim, symFree, iha, ihb]

theorem evalE_nd_irrel (nd nd' : Nat) (vals : List Int) (e : AffineExpr)
    (h : symFree e = true) : evalE nd vals e = evalE nd' vals e := by
  induction e with
  | dim d => rfl
  | sym s => simp [symFree] at h
  | cst c => rfl
  | add a b iha ihb =>
      simp [symFree] at h
      simp [evalE, iha h.1, ihb h.2]
  | mul a b iha ihb =>
      simp [symFree] at h
      simp [evalE, iha h.1, ihb h.2]

theorem evalE_append (nd : Nat) (vals extra : List Int) (e : AffineExpr)
    (h : scopedE vals.length e = true) :
    evalE nd (vals ++ extra) e = evalE nd vals e := by
  induction e with
  | dim d =>
      simp [scopedE] at h
      show (vals ++ extra).getD d 0 = vals.getD d 0
      exact List.getD_append _ _ _ _ h
  | sym s => simp [scopedE] at h
  | cst c => rfl
  | add a b iha ihb =>
      simp [scopedE] at h
      simp [evalE, iha h.1, ihb h.2]
  | mul a b iha ihb =>
      simp [scopedE] at h
      simp [evalE, iha h.1, ihb h.2]

theorem evalE_shift (nd : Nat) (pre vals : List Int) (e : AffineExpr)
    (h : symFree e = true) :
    evalE nd (pre ++ vals) (shiftDims pre.length e) = evalE nd vals e := by
  induction e with
  | dim d =>
      show (pre ++ vals).getD (pre.length + d) 0 = vals.getD d 0
      rw [List.getD_append_right _ _ _ _ (Nat.le_add_right pre.length d)]
      simp
  | sym s => simp [symFree] at h
  | cst c => rfl
  | add a b iha ihb =>
      simp [symFree] at h
      simp [shiftDims, evalE, iha h.1, ihb h.2]
  | mul a b iha ihb =>
      simp [symFree] at h
      simp [shiftDims, evalE, iha h.1, ihb h.2]

theorem symFree_shift (k : Nat) (e : AffineExpr) (h : symFree e = true) :
    symFree (shiftDims k e) = true := by
  induction e with
  | dim d => rfl
  | sym s => simp [symFree] at h
  | cst c => rfl
  | add a b iha ihb =>
      simp [symFree] at h
      simp [shiftDims, symFree, iha h.1, ihb h.2]
  | mul a b iha ihb =>
      simp [symFree] at h
      simp [shiftDims, symFree, iha h.1, ihb h.2]

theorem scoped_shift (k n : Nat) (e : AffineExpr) (h : scopedE n e = true) :
    scopedE (k + n) (shiftDims k e) = true := by
  induction e with
  | dim d =>
      simp [scopedE] at h
      simp [shiftDims, scopedE]
      omega
  | sym s => simp [scopedE] at h
  | cst c => rfl
  | add a b iha ihb =>
      simp [scopedE] at h
      simp [shiftDims, scopedE, iha h.1, ihb h.2]
  | mul a b iha ihb =>
      simp [scopedE] at h
      simp [shiftDims, scopedE, iha h.1, ihb h.2]

theorem getD_mem_or_default (subs : List AffineExpr) (d : Nat)
    (e : AffineExpr) :
    subs.getD d e ∈ subs ∨ subs.getD d e = e := by
  by_cases hd : d < subs.length
  · left
    rw [List.getD_eq_getElem _ _ hd]
    exact List.getElem_mem hd
  · right
    simp [List.getD_eq_getElem?_getD, List.getElem?_eq_none (Nat.le_of_not_lt hd)]

theorem symFree_substDims (subs : List AffineExpr) (e : AffineExpr)
    (he : symFree e = true) (hs : ∀ s ∈ subs, symFree s = true) :
    symFree (substDims subs e) = true := by
  induction e with
  | dim d =>
      rcases getD_mem_or_default subs d (.cst 0) with h | h
      · exact hs _ h
      · show symFree (subs.getD d (.cst 0)) = true
        rw [h]
        rfl
  | sym s => simp [symFree] at he
  | cst c => rfl
  | add a b iha ihb =>
      simp [symFree] at he
      simp [substDims, symFree, iha he.1, ihb he.2]
  | mul a b iha ihb =>
      simp [symFree] at he
      simp [substDims, symFree, iha he.1, ihb he.2]

theorem scoped_substDims (n : Nat) (subs : List AffineExpr) (e : AffineExpr)
    (he : symFree e = true) (hs : ∀ s ∈ subs, scopedE n s = true) :
    scopedE n (substDims subs e) = true := by
  induction e with
  | dim d =>
      rcases getD_mem_or_default subs d (.cst 0) with h | h
      · exact hs _ h
      · show scopedE n (subs.getD d (.cst 0)) = true
        rw [h]
        rfl
  | sym s => simp [symFree] at he
  | cst c => rfl
  | add a b iha ihb =>
      simp [symFree] at he
      simp [substDims, scopedE, iha he.1, ihb he.2]
  | mul a b iha ihb =>
      simp [symFree] at he
      simp [substDims, scopedE, iha he.1, ihb he.2]

theorem evalE_substDims (nd : Nat) (vals : List Int) (subs : List AffineExpr)
    (e : AffineExpr) (he : symFree e = true) :
    evalE nd vals (substDims subs e) =
      evalE nd (subs.map (evalE nd vals)) e := by
  induction e with
  | dim d =>
      show evalE nd vals (subs.getD d (.cst 0)) =
        (subs.map (evalE nd vals)).getD d 0
      by_cases hd : d < subs.length
      · rw [List.getD_eq_getElem _ _ hd,
          List.getD_eq_getElem _ _ (by simpa using hd)]
        simp
      · have h1 : subs.getD d (.cst 0) = .cst 0 := by
          simp [List.getD_eq_getElem?_getD,
            List.getElem?_eq_none (Nat.le_of_not_lt hd)]
        have h2 : (subs.map (evalE nd vals)).getD d 0 = 0 := by
          simp [List.getD_eq_getElem?_getD,
            List.getElem?_eq_none (l := subs.map (evalE nd vals))
              (by simpa using Nat.le_of_not_lt hd)]
        rw [h1, h2]
        rfl
  | sym s => simp [symFree] at he
  | cst c => rfl
  | add a b iha ihb =>
      simp [symFree] at he
      simp [substDims, evalE, iha he.1, ihb he.2]
  | mul a b iha ihb =>
      simp [symFree] at he
      simp [substDims, evalE, iha he.1, ihb he.2]

theorem scoped_mono (n m : Nat) (e : AffineExpr) (hnm : n ≤ m)
    (h : scopedE n e = true) : scopedE m e = true := by
  induction e with
  | dim d =>
      simp [scopedE] at h ⊢
      omega
  | sym s => simp [scopedE] at h
  | cst c => rfl
  | add a b iha ihb =>
      simp [scopedE] at h ⊢
      exact ⟨iha h.1, ihb h.2⟩
  | mul a b iha ihb =>
      simp [scopedE] at h ⊢
      exact ⟨iha h.1, ihb h.2⟩

mutual

theorem flattenVal_wf (v : Value) :
    symFree (flattenVal v).1 = true ∧
      scopedE (flattenVal v).2.length (flattenVal v).1 = true := by
  match v with
  | .leaf i => exact ⟨rfl, rfl⟩
  | .cst c => exact ⟨rfl, rfl⟩
  | .apply m ops =>
      have ih := flattenList_wf ops
      simp only [flattenVal]
      constructor
      · exact symFree_substDims _ _ (symFree_symToDim _ _)
          (fun s hs => (ih s hs).1)
      · exact scoped_substDims _ _ _ (symFree_symToDim _ _)
          (fun s hs => (ih s hs).2)

theorem flattenList_wf (vs : List Value) :
    ∀ e ∈ (flattenList vs).1,
      symFree e = true ∧ scopedE (flattenList vs).2.length e = true := by
  match vs with
  | [] => intro e he; simp [flattenList] at he
  | v :: vs =>
      have ihv := flattenVal_wf v
      have ihl := flattenList_wf vs
      intro e he
      simp only [flattenList, List.mem_cons, List.mem_map] at he
      rcases he with he | ⟨e0, he0, rfl⟩
      · subst he
        refine ⟨ihv.1, ?_⟩
        simp only [flattenList, List.length_append]
        exact scoped_mono _ _ _ (Nat.le_add_right _ _) ihv.2
      · refine ⟨symFree_shift _ _ (ihl e0 he0).1, ?_⟩
        simp only [flattenList, List.length_append]
        exact scoped_shift _ _ _ (ihl e0 he0).2

end

mutual

theorem flattenVal_sem (env : Nat → Int) (v : Value) :
    evalE 0 ((flattenVal v).2.map (evalV env)) (flattenVal v).1 =
      evalV env v := by
  match v with
  | .leaf i => rfl
  | .cst c => rfl
  | .apply m ops =>
      have ih := flattenList_sem env ops
      simp only [flattenVal]
      rw [evalE_substDims _ _ _ _ (symFree_symToDim _ _), ih,
        evalE_nd_irrel 0 m.numDims _ _ (symFree_symToDim _ _),
        evalE_symToDim]
      simp [evalV, evalVList_eq_map]

theorem flattenList_sem (env : Nat → Int) (vs : List Value) :
    (flattenList vs).1.map (evalE 0 ((flattenList vs).2.map (evalV env))) =
      vs.map (evalV env) := by
  match vs with
  | [] => rfl
  | v :: vs =>
      have ihv := flattenVal_sem env v
      have ihl := flattenList_sem env vs
      have hwfv := flattenVal_wf v
      have hwfl := flattenList_wf vs
      simp only [flattenList, List.map_cons, List.map_append, List.map_map]
      refine congrArg₂ (· :: ·) ?_ ?_
      · rw [evalE_append 0 ((flattenVal v).2.map (evalV env)) _ _
          (by simpa using hwfv.2)]
        exact ihv
      · rw [← ihl]
        apply List.map_congr_left
        intro e he
        simp only [Function.comp]
        have hlen : ((flattenVal v).2.map (evalV env)).length =
            (flattenVal v).2.length := by simp
        rw [← hlen, evalE_shift _ _ _ _ (hwfl e he).1]

end

theorem foldOrApply_sem (env : Nat → Int) (e : AffineExpr) (ops : List Value)
    (he : symFree e = true) :
    evalV env (foldOrApply e ops) = evalE 0 (ops.map (evalV env)) e := by
  cases e with
  | dim d =>
      cases hget : ops.get? d with
      | some v =>
          have hd : d < ops.length := by
            by_contra hlt
            rw [List.get?_eq_none.mpr (Nat.le_of_not_lt hlt)] at hget
            exact Option.noConfusion hget
          simp only [foldOrApply, tryFold, hget]
          show evalV env v = (ops.map (evalV env)).getD d 0
          rw [List.getD_eq_getElem?_getD, List.getElem?_map]
          rw [← List.get?_eq_getElem?, hget]
          rfl
      | none =>
          simp only [foldOrApply, tryFold, hget]
          show evalE ops.length (evalVList env ops) (AffineMap.headExpr _) =
            (ops.map (evalV env)).getD d 0
          rw [evalVList_eq_map]
          rfl
  | sym s => simp [symFree] at he
  | cst c =>
      simp only [foldOrApply, tryFold]
      rfl
  | add a b =>
      simp only [foldOrApply, tryFold]
      show evalE ops.length (evalVList env ops) (AffineMap.headExpr _) =
        evalE 0 (ops.map (evalV env)) (.add a b)
      rw [evalVList_eq_map]
      exact evalE_nd_irrel _ _ _ _ he
  | mul a b =>
      simp only [foldOrApply, tryFold]
      show evalE ops.length (evalVList env ops) (AffineMap.headExpr _) =
        evalE 0 (ops.map (evalV env)) (.mul a b)
      rw [evalVList_eq_map]
      exact evalE_nd_irrel _ _ _ _ he

theorem composed_symFree (map : AffineMap) (operands : List Value) :
    symFree (composeMapOperands map operands).1 = true :=
  symFree_substDims _ _ (symFree_symToDim _ _)
    (fun s hs => (flattenList_wf operands s hs).1)

theorem composed_sem (env : Nat → Int) (map : AffineMap)
    (operands : List Value) :
    evalE 0 ((composeMapOperands map operands).2.map (evalV env))
        (composeMapOperands map operands).1 =
      evalV env (.apply map operands) := by
  simp only [composeMapOperands]
  rw [evalE_substDims _ _ _ _ (symFree_symToDim _ _),
    flattenList_sem env operands,
    evalE_nd_irrel 0 map.numDims _ _ (symFree_symToDim _ _),
    evalE_symToDim]
  simp [evalV, evalVList_eq_map]

/-- C1: for every affine map and operand list (operands may themselves be
results of affine applications), the value returned by
`makeFoldedComposedAffineApply` evaluates, under any concrete integer
assignment to the opaque leaf operands, identically to directly evaluating
the original multi-hop application chain, and the call creates at most one
new instruction. -/
theorem makeFoldedComposedAffineApply_correct (map : AffineMap)
    (operands : List Value) (env : Nat → Int) :
    evalV env (makeFoldedComposedAffineApply map operands) =
      evalV env (.apply map operands) ∧
    appliedNewOps map operands ≤ 1 := by
  constructor
  · show evalV env (foldOrApply (composeMapOperands map operands).1
        (composeMapOperands map operands).2) = _
    rw [foldOrApply_sem env _ _ (composed_symFree map operands)]
    exact composed_sem env map operands
  · unfold appliedNewOps
    cases (composeMapOperands map operands).1 <;> simp

/-- C7: on a single-result map, `tryFold` returns the operand at position
`d` for a dimension reference, the operand at `numDims + s` for a symbol
reference, a materialized constant equal to the expression's value for a
constant, and signals "no fold" for every other expression shape. -/
theorem tryFold_cases (nd ns : Nat) (ops : List Value) :
    (∀ d (h : d < ops.length),
        tryFold ⟨nd, ns, [.dim d]⟩ ops = .ok (some (ops.get ⟨d, h⟩))) ∧
    (∀ s (h : nd + s < ops.length),
        tryFold ⟨nd, ns, [.sym s]⟩ ops = .ok (some (ops.get ⟨nd + s, h⟩))) ∧
    (∀ c : Int, tryFold ⟨nd, ns, [.cst c]⟩ ops = .ok (some (.cst c)) ∧
        ∀ env, evalV env (.cst c) = c) ∧
    (∀ a b : AffineExpr,
        tryFold ⟨nd, ns, [.add a b]⟩ ops = .ok none ∧
        tryFold ⟨nd, ns, [.mul a b]⟩ ops = .ok none) := by
  refine ⟨?_, ?_, ?_, ?_⟩
  · intro d h
    simp only [tryFold, List.get?_eq_get h]
  · intro s h
    simp only [tryFold, List.get?_eq_get h]
  · intro c
    exact ⟨rfl, fun env => rfl⟩
  · intro a b
    exact ⟨rfl, rfl⟩

/-- C7 witness: concrete instances of all four folding rules. -/
theorem tryFold_cases_witness :
    tryFold ⟨1, 0, [.dim 0]⟩ [.leaf 7] = .ok (some (.leaf 7)) ∧
    tryFold ⟨1, 0, [.sym 0]⟩ [.leaf 7, .leaf 8] = .ok (some (.leaf 8)) ∧
    tryFold ⟨1, 0, [.cst 5]⟩ [] = .ok (some (.cst 5)) ∧
    tryFold ⟨1, 0, [.add (.dim 0) (.cst 1)]⟩ [.leaf 7] = .ok none := by
  refine ⟨?_, ?_, ?_, ?_⟩
  · exact (tryFold_cases 1 0 [.leaf 7]).1 0 (by simp)
  · exact (tryFold_cases 1 0 [.leaf 7, .leaf 8]).2.1 0 (by simp)
  · exact ((tryFold_cases 1 0 []).2.2.1 5).1
  · exact ((tryFold_cases 1 0 [.leaf 7]).2.2.2 (.dim 0) (.cst 1)).1

/-- C8: `tryFold` requires a single-result map: every other result count is
a fatal arity error, and under the single-result precondition that error is
unreachable. -/
theorem tryFold_arity (map : AffineMap) (ops : List Value) :
    (map.numResults ≠ 1 → tryFold map ops = .error .arityMismatch) ∧
    (map.numResults = 1 → tryFold map ops ≠ .error .arityMismatch) := by
  constructor
  · intro h
    match hr : map.results with
    | [] => simp [tryFold, hr]
    | [e] =>
        exfalso
        exact h (by simp [AffineMap.numResults, hr])
    | e1 :: e2 :: rest => simp [tryFold, hr]
  · intro h
    match hr : map.results with
    | [] => simp [AffineMap.numResults, hr] at h
    | [e] =>
        cases e with
        | dim d =>
            cases hget : ops[d]? <;>
              simp [tryFold, hr, hget]
        | sym s =>
            cases hget : ops[map.numDims + s]? <;>
              simp [tryFold, hr, hget]
        | cst c => simp [tryFold, hr]
        | add a b => simp [tryFold, hr]
        | mul a b => simp [tryFold, hr]
    | e1 :: e2 :: rest => simp [AffineMap.numResults, hr] at h

/-- C8 witness: a two-result map is rejected with the arity error and a
single-result map is not. -/
theorem tryFold_arity_witness :
    tryFold ⟨0, 0, [.cst 1, .cst 2]⟩ [] = .error .arityMismatch ∧
    tryFold ⟨0, 0, [.cst 3]⟩ [] ≠ .error .arityMismatch := by
  constructor
  · exact (tryFold_arity ⟨0, 0, [.cst 1, .cst 2]⟩ []).1 (by decide)
  · exact (tryFold_arity ⟨0, 0, [.cst 3]⟩ []).2 (by decide)

/-- The result of a `RangeOp`: a packaged (min, max, step) triple.  The
source's `cast<RangeOp>` when deconstructing is by construction here. -/
structure RangeVal where
  min : Value
  max : Value
  step : Value
deriving Repr

/-- `RangeParts`: the three projections of a sequence of range triples. -/
structure RangeParts where
  mins : List Value
  maxes : List Value
  steps : List Value
deriving Repr

/-- The `RangeParts(unsigned reserved)` constructor: empty projections
(reservation only pre-sizes the vectors, it adds no element). -/
def RangeParts.ofReserved (_reserved : Nat) : RangeParts := ⟨[], [], []⟩

/-- The `RangeParts(ArrayRef<Value *>)` constructor via `extractFromRanges`:
read each packaged range's min/max/step from its producing instruction. -/
def RangeParts.ofRanges (ranges : List RangeVal) : RangeParts :=
  ⟨ranges.map (·.min), ranges.map (·.max), ranges.map (·.step)⟩

/-- `llvm::zip` over the three projections, truncating to the shortest. -/
def zipRanges : List Value → List Value → List Value → List RangeVal
  | a :: as, b :: bs, c :: cs => ⟨a, b, c⟩ :: zipRanges as bs cs
  | _, _, _ => []

/-- `RangeParts::makeRanges`: repackage the projections pairwise, index by
index, into new range values. -/
def RangeParts.makeRanges (p : RangeParts) : List RangeVal :=
  zipRanges p.mins p.maxes p.steps

/-- `makeGenericRangeParts`: for each result expression of the map, build
the single-result map `AffineMap::get(numDims, 0, expr, {})` and apply the
composed applicator independently to the min, max, and step projections.
The source also asserts `map.getNumInputs() == ranges.size()`,
`map.getNumSymbols() == 0` and empty range sizes (`ArityMismatch` /
`UnsupportedMapShape`); no claim exercises those asserts and the offending
inputs only shift which operand positions are read. -/
def makeGenericRangeParts (map : AffineMap) (ranges : List RangeVal) :
    RangeParts :=
  let rangeParts := RangeParts.ofRanges ranges
  ⟨map.results.map
      (fun e => makeFoldedComposedAffineApply ⟨map.numDims, 0, [e]⟩
        rangeParts.mins),
    map.results.map
      (fun e => makeFoldedComposedAffineApply ⟨map.numDims, 0, [e]⟩
        rangeParts.maxes),
    map.results.map
      (fun e => makeFoldedComposedAffineApply ⟨map.numDims, 0, [e]⟩
        rangeParts.steps)⟩

/-- `makeGenericRanges` from the source. -/
def makeGenericRanges (map : AffineMap) (ranges : List RangeVal) :
    List RangeVal :=
  (makeGenericRangeParts map ranges).makeRanges

/-- `v->getDefiningOp()->cast<ConstantIndexOp>().getValue()`: read a value
as a compile-time index constant; a failed cast is the non-constant-fold
error. -/
def constIndexValue (v : Value) : Except TransformErr Int :=
  match v with
  | .cst c => .ok c
  | _ => .error .nonConstantFold

/-- The tiling loop of `makeGenericLoopRanges`: zip derived steps with tile
sizes (`llvm::zip` truncates to the shorter sequence), read both as
compile-time constants, assert the derived step is positive
(`assert(stepValue > 0)` is the illegal-step error), and materialize
`stepValue * tileSizeValue`. -/
def tileSteps : List Value → List Value → Except TransformErr (List Value)
  | step :: ss, tile :: ts =>
    (match constIndexValue step with
     | .error e => .error e
     | .ok stepValue =>
       match constIndexValue tile with
       | .error e => .error e
       | .ok tileSizeValue =>
         if 0 < stepValue then
           match tileSteps ss ts with
           | .ok rest => .ok (.cst (stepValue * tileSizeValue) :: rest)
           | .error e => .error e
         else .error .illegalStep)
  | _, _ => .ok []

/-- `makeGenericLoopRanges` from the source: derive the range parts, and
either repackage directly (no tiling) or replace the step projection by the
tiled steps first. -/
def makeGenericLoopRanges (map : AffineMap) (ranges : List RangeVal)
    (tileSizes : Option (List Value)) :
    Except TransformErr (List RangeVal) :=
  let res := makeGenericRangeParts map ranges
  match tileSizes with
  | none => .ok res.makeRanges
  | some ts =>
    match tileSteps res.steps ts with
    | .ok tiledSteps =>
        .ok (RangeParts.mk res.mins res.maxes tiledSteps).makeRanges
    | .error e => .error e

theorem zipRanges_length (a b c : List Value) :
    (zipRanges a b c).length = min a.length (min b.length c.length) := by
  induction a generalizing b c with
  | nil => simp [zipRanges]
  | cons x xs ih =>
      cases b with
      | nil => simp [zipRanges]
      | cons y ys =>
          cases c with
          | nil => simp [zipRanges]
          | cons z zs =>
              simp [zipRanges, ih]
              omega

theorem makeGenericRangeParts_len (map : AffineMap) (ranges : List RangeVal) :
    (makeGenericRangeParts map ranges).mins.length = map.numResults ∧
    (makeGenericRangeParts map ranges).maxes.length = map.numResults ∧
    (makeGenericRangeParts map ranges).steps.length = map.numResults := by
  simp [makeGenericRangeParts, AffineMap.numResults]

theorem constIndexValue_ok (v : Value) (c : Int)
    (h : constIndexValue v = .ok c) : v = .cst c := by
  cases v with
  | leaf i => simp [constIndexValue] at h
  | cst c2 => simp [constIndexValue] at h; simp [h]
  | apply m ops => simp [constIndexValue] at h

theorem tileSteps_length (ss ts out : List Value)
    (h : tileSteps ss ts = .ok out) :
    out.length = min ss.length ts.length := by
  induction ss generalizing ts out with
  | nil =>
      simp [tileSteps] at h
      subst h
      simp
  | cons s ss ih =>
      cases ts with
      | nil =>
          simp [tileSteps] at h
          subst h
          simp
      | cons t ts =>
          simp only [tileSteps] at h
          split at h
          · simp at h
          · split at h
            · simp at h
            · split at h
              · split at h
                · rename_i rest hr
                  have hlen := ih ts rest hr
                  cases h
                  simp [hlen]
                  omega
                · simp at h
              · simp at h

theorem tileSteps_ok_iff (ss ts : List Value) :
    (∃ out, tileSteps ss ts = .ok out) ↔
      ∀ p ∈ ss.zip ts,
        (∃ c, p.1 = Value.cst c ∧ 0 < c) ∧ (∃ c, p.2 = Value.cst c) := by
  induction ss generalizing ts with
  | nil => simp [tileSteps]
  | cons s ss ih =>
      cases ts with
      | nil => simp [tileSteps]
      | cons t ts =>
          simp only [List.zip_cons_cons, List.mem_cons]
          constructor
          · rintro ⟨out, h⟩
            simp only [tileSteps] at h
            split at h
            · simp at h
            · rename_i sv hs
              split at h
              · simp at h
              · rename_i tv ht
                split at h
                · rename_i hpos
                  split at h
                  · rename_i rest hr
                    intro p hp
                    rcases hp with hp | hp
                    · subst hp
                      exact ⟨⟨sv, constIndexValue_ok s sv hs, hpos⟩,
                        ⟨tv, constIndexValue_ok t tv ht⟩⟩
                    · exact (ih ts).mp ⟨rest, hr⟩ p hp
                  · simp at h
                · simp at h
          · intro hall
            obtain ⟨⟨sv, hsv, hpos⟩, ⟨tv, htv⟩⟩ := hall (s, t) (Or.inl rfl)
            obtain ⟨rest, hrest⟩ :=
              (ih ts).mpr (fun p hp => hall p (Or.inr hp))
            refine ⟨.cst (sv * tv) :: rest, ?_⟩
            subst hsv
            subst htv
            simp [tileSteps, constIndexValue, hpos, hrest]

theorem tileSteps_const (svs tvs : List Int) (hpos : ∀ s ∈ svs, 0 < s) :
    tileSteps (svs.map Value.cst) (tvs.map Value.cst) =
      .ok ((svs.zip tvs).map (fun p => Value.cst (p.1 * p.2))) := by
  induction svs generalizing tvs with
  | nil => simp [tileSteps]
  | cons s ss ih =>
      cases tvs with
      | nil => simp [tileSteps]
      | cons t ts =>
          have hs : (0 : Int) < s := hpos s (by simp)
          simp only [List.map_cons, tileSteps, constIndexValue,
            if_pos hs, ih ts (fun x hx => hpos x (by simp [hx])),
            List.zip_cons_cons]

theorem zip_replicate_one_tiled (svs : List Int) :
    ((svs.zip (List.replicate svs.length 1)).map
      (fun p => Value.cst (p.1 * p.2))) = svs.map Value.cst := by
  induction svs with
  | nil => rfl
  | cons s ss ih => simp [List.replicate_succ, ih]

/-- C4: every operation on range-triple sequences preserves the equal-length
invariant of the min/max/step projections: both `RangeParts` constructors
establish it, `makeRanges` repackages a parts value with equal projections
into exactly that many range triples, untiled generic derivation produces
equal-length projections, and tiled derivation does too when (per the data
model) one tile size is supplied per derived step. -/
theorem rangeParts_equal_lengths (n : Nat) (ranges : List RangeVal)
    (map : AffineMap) (p : RangeParts) (ts tiled : List Value) :
    ((RangeParts.ofReserved n).mins.length =
        (RangeParts.ofReserved n).maxes.length ∧
      (RangeParts.ofReserved n).maxes.length =
        (RangeParts.ofReserved n).steps.length) ∧
    ((RangeParts.ofRanges ranges).mins.length =
        (RangeParts.ofRanges ranges).maxes.length ∧
      (RangeParts.ofRanges ranges).maxes.length =
        (RangeParts.ofRanges ranges).steps.length) ∧
    (p.mins.length = p.maxes.length → p.maxes.length = p.steps.length →
      p.makeRanges.length = p.mins.length) ∧
    ((makeGenericRangeParts map ranges).mins.length =
        (makeGenericRangeParts map ranges).maxes.length ∧
      (makeGenericRangeParts map ranges).maxes.length =
        (makeGenericRangeParts map ranges).steps.length) ∧
    (ts.length = (makeGenericRangeParts map ranges).steps.length →
      tileSteps (makeGenericRangeParts map ranges).steps ts = .ok tiled →
      (makeGenericRangeParts map ranges).mins.length =
          (makeGenericRangeParts map ranges).maxes.length ∧
        (makeGenericRangeParts map ranges).maxes.length = tiled.length) := by
  refine ⟨⟨rfl, rfl⟩, ⟨by simp [RangeParts.ofRanges], by simp [RangeParts.ofRanges]⟩,
    ?_, ⟨by simp [makeGenericRangeParts], by simp [makeGenericRangeParts]⟩, ?_⟩
  · intro h1 h2
    simp [RangeParts.makeRanges, zipRanges_length, ← h1, ← h2]
  · intro hlen htiled
    have h1 := tileSteps_length _ _ _ htiled
    refine ⟨by simp [makeGenericRangeParts], ?_⟩
    rw [h1, hlen, Nat.min_self]
    simp [makeGenericRangeParts]

/-- C4 witness: concrete repackaging and tiled derivation instances. -/
theorem rangeParts_equal_lengths_witness :
    (RangeParts.mk [.leaf 0] [.leaf 1] [.cst 2]).makeRanges.length = 1 ∧
    ((makeGenericRangeParts ⟨1, 0, [.dim 0]⟩
          [⟨.leaf 0, .leaf 1, .cst 2⟩]).mins.length =
        (makeGenericRangeParts ⟨1, 0, [.dim 0]⟩
          [⟨.leaf 0, .leaf 1, .cst 2⟩]).maxes.length ∧
      (makeGenericRangeParts ⟨1, 0, [.dim 0]⟩
          [⟨.leaf 0, .leaf 1, .cst 2⟩]).maxes.length =
        [Value.cst 2].length) := by
  have h := rangeParts_equal_lengths 1 [⟨.leaf 0, .leaf 1, .cst 2⟩]
    ⟨1, 0, [.dim 0]⟩ ⟨[.leaf 0], [.leaf 1], [.cst 2]⟩ [.cst 1] [.cst 2]
  exact ⟨h.2.2.1 rfl rfl, h.2.2.2.2 rfl rfl⟩

/-- C5: with one tile size per derived step, the tiled derivation fails
(fatal cast/assert abort) exactly when some derived step is not a
compile-time constant or is not positive, or some tile size is not a
constant; under the positive-constant precondition the error branch is
unreachable and derivation succeeds. -/
theorem makeGenericLoopRanges_fail_iff (map : AffineMap)
    (ranges : List RangeVal) (ts : List Value)
    (_hlen : ts.length = (makeGenericRangeParts map ranges).steps.length) :
    (∃ out, makeGenericLoopRanges map ranges (some ts) = .ok out) ↔
      ∀ p ∈ (makeGenericRangeParts map ranges).steps.zip ts,
        (∃ c, p.1 = Value.cst c ∧ 0 < c) ∧ (∃ c, p.2 = Value.cst c) := by
  constructor
  · rintro ⟨out, h⟩
    simp only [makeGenericLoopRanges] at h
    split at h
    · rename_i tiled htiled
      exact (tileSteps_ok_iff _ _).mp ⟨tiled, htiled⟩
    · simp at h
  · intro hall
    obtain ⟨tiled, htiled⟩ := (tileSteps_ok_iff _ _).mpr hall
    refine ⟨(RangeParts.mk (makeGenericRangeParts map ranges).mins
      (makeGenericRangeParts map ranges).maxes tiled).makeRanges, ?_⟩
    simp only [makeGenericLoopRanges, htiled]

/-- C5 witness: a positive constant derived step with a constant tile size
succeeds; a non-positive derived step makes the call fail. -/
theorem makeGenericLoopRanges_fail_iff_witness :
    (∃ out, makeGenericLoopRanges ⟨1, 0, [.dim 0]⟩
        [⟨.leaf 0, .leaf 1, .cst 2⟩] (some [.cst 3]) = .ok out) ∧
    ¬(∃ out, makeGenericLoopRanges ⟨1, 0, [.dim 0]⟩
        [⟨.leaf 0, .leaf 1, .cst 0⟩] (some [.cst 3]) = .ok out) := by
  constructor
  · refine (makeGenericLoopRanges_fail_iff ⟨1, 0, [.dim 0]⟩
      [⟨.leaf 0, .leaf 1, .cst 2⟩] [.cst 3] rfl).mpr ?_
    intro p hp
    have hp2 : p = (Value.cst 2, Value.cst 3) := by
      simpa [makeGenericRangeParts] using hp
    subst hp2
    exact ⟨⟨2, rfl, by norm_num⟩, ⟨3, rfl⟩⟩
  · intro hok
    have hsteps : (makeGenericRangeParts ⟨1, 0, [.dim 0]⟩
        [⟨.leaf 0, .leaf 1, .cst 0⟩]).steps = [Value.cst 0] := rfl
    have hall := (makeGenericLoopRanges_fail_iff ⟨1, 0, [.dim 0]⟩
      [⟨.leaf 0, .leaf 1, .cst 0⟩] [.cst 3] (by simp [hsteps])).mp hok
    rw [hsteps] at hall
    obtain ⟨⟨c, hc, hcpos⟩, -⟩ := hall (Value.cst 0, Value.cst 3) (by simp)
    injection hc with h
    subst h
    exact absurd hcpos (by norm_num)

/-- C3: with every tile size equal to 1, tiled derivation returns exactly
the untiled derivation; and for arbitrary constant tile sizes each tiled
step is the exact literal product step × tileSize. -/
theorem makeGenericLoopRanges_tile_one (map : AffineMap)
    (ranges : List RangeVal) (svs : List Int)
    (hsteps : (makeGenericRangeParts map ranges).steps = svs.map Value.cst)
    (hpos : ∀ s ∈ svs, 0 < s) :
    makeGenericLoopRanges map ranges
        (some (List.replicate svs.length (Value.cst 1))) =
      makeGenericLoopRanges map ranges none ∧
    ∀ tvs : List Int,
      makeGenericLoopRanges map ranges (some (tvs.map Value.cst)) =
        .ok (zipRanges (makeGenericRangeParts map ranges).mins
          (makeGenericRangeParts map ranges).maxes
          ((svs.zip tvs).map (fun p => Value.cst (p.1 * p.2)))) := by
  constructor
  · have hrepl : List.replicate svs.length (Value.cst 1) =
        (List.replicate svs.length (1 : Int)).map Value.cst := by
      simp
    have htile : tileSteps (makeGenericRangeParts map ranges).steps
        (List.replicate svs.length (Value.cst 1)) =
        .ok (svs.map Value.cst) := by
      rw [hsteps, hrepl, tileSteps_const svs _ hpos]
      rw [show (List.replicate svs.length (1 : Int)) =
        List.replicate (svs.map Value.cst).length (1 : Int) by simp]
      rw [show svs.map Value.cst = svs.map Value.cst by rfl]
      simp only [List.length_map] at *
      rw [zip_replicate_one_tiled]
    simp only [makeGenericLoopRanges, htile, ← hsteps]
  · intro tvs
    have htile : tileSteps (makeGenericRangeParts map ranges).steps
        (tvs.map Value.cst) =
        .ok ((svs.zip tvs).map (fun p => Value.cst (p.1 * p.2))) := by
      rw [hsteps, tileSteps_const svs tvs hpos]
    simp only [makeGenericLoopRanges, htile]
    rfl

/-- C3 witness: a derived step 2 tiled by 1 reproduces the untiled ranges,
and tiled by 5 yields the step 2 × 5 = 10. -/
theorem makeGenericLoopRanges_tile_one_witness :
    makeGenericLoopRanges ⟨1, 0, [.dim 0]⟩ [⟨.leaf 0, .leaf 1, .cst 2⟩]
        (some [.cst 1]) =
      makeGenericLoopRanges ⟨1, 0, [.dim 0]⟩ [⟨.leaf 0, .leaf 1, .cst 2⟩]
        none ∧
    makeGenericLoopRanges ⟨1, 0, [.dim 0]⟩ [⟨.leaf 0, .leaf 1, .cst 2⟩]
        (some [.cst 5]) =
      .ok [⟨.leaf 0, .leaf 1, .cst 10⟩] := by
  have h := makeGenericLoopRanges_tile_one ⟨1, 0, [.dim 0]⟩
    [⟨.leaf 0, .leaf 1, .cst 2⟩] [2] rfl
    (by intro s hs; simp at hs; subst hs; norm_num)
  refine ⟨h.1, ?_⟩
  have h2 := h.2 [5]
  simpa [makeGenericRangeParts, zipRanges] using h2

/-- C9: only the derived step's positivity is ever checked, never the tile
size's: with positive constant derived steps and arbitrary constant tile
sizes (zero or negative included), the call succeeds and each tiled step is
the literal product step × tileSize, which may be ≤ 0. -/
theorem makeGenericLoopRanges_tile_unchecked (map : AffineMap)
    (ranges : List RangeVal) (svs tvs : List Int)
    (hsteps : (makeGenericRangeParts map ranges).steps = svs.map Value.cst)
    (hpos : ∀ s ∈ svs, 0 < s) :
    makeGenericLoopRanges map ranges (some (tvs.map Value.cst)) =
      .ok (zipRanges (makeGenericRangeParts map ranges).mins
        (makeGenericRangeParts map ranges).maxes
        ((svs.zip tvs).map (fun p => Value.cst (p.1 * p.2)))) := by
  have htile : tileSteps (makeGenericRangeParts map ranges).steps
      (tvs.map Value.cst) =
      .ok ((svs.zip tvs).map (fun p => Value.cst (p.1 * p.2))) := by
    rw [hsteps, tileSteps_const svs tvs hpos]
  simp only [makeGenericLoopRanges, htile]
  rfl

/-- C9 witness: step 2 tiled by −3 succeeds and produces the non-positive
step −6. -/
theorem makeGenericLoopRanges_tile_unchecked_witness :
    makeGenericLoopRanges ⟨1, 0, [.dim 0]⟩ [⟨.leaf 0, .leaf 1, .cst 2⟩]
        (some [.cst (-3)]) =
      .ok [⟨.leaf 0, .leaf 1, .cst (-6)⟩] ∧ (-6 : Int) ≤ 0 := by
  have h := makeGenericLoopRanges_tile_unchecked ⟨1, 0, [.dim 0]⟩
    [⟨.leaf 0, .leaf 1, .cst 2⟩] [2] [-3] rfl
    (by intro s hs; simp at hs; subst hs; norm_num)
  refine ⟨?_, by norm_num⟩
  simpa [makeGenericRangeParts, zipRanges] using h

/-- C10: requesting tiling with fewer tile sizes than the map has results
raises no error: the zip truncates to the tile-size count, and repackaging
returns exactly that many range values — fewer than the map's result
count. -/
theorem makeGenericLoopRanges_truncates (map : AffineMap)
    (ranges : List RangeVal) (svs tvs : List Int)
    (hsteps : (makeGenericRangeParts map ranges).steps = svs.map Value.cst)
    (hpos : ∀ s ∈ svs, 0 < s)
    (hlt : tvs.length < svs.length) :
    ∃ out, makeGenericLoopRanges map ranges (some (tvs.map Value.cst)) =
        .ok out ∧
      out.length = tvs.length ∧ out.length < map.numResults := by
  have htile : tileSteps (makeGenericRangeParts map ranges).steps
      (tvs.map Value.cst) =
      .ok ((svs.zip tvs).map (fun p => Value.cst (p.1 * p.2))) := by
    rw [hsteps, tileSteps_const svs tvs hpos]
  have hlen := makeGenericRangeParts_len map ranges
  have hsvs : svs.length = map.numResults := by
    have := hlen.2.2
    rw [hsteps] at this
    simpa using this
  have hout : (RangeParts.mk (makeGenericRangeParts map ranges).mins
      (makeGenericRangeParts map ranges).maxes
      ((svs.zip tvs).map (fun p => Value.cst (p.1 * p.2)))).makeRanges.length =
      tvs.length := by
    simp only [RangeParts.makeRanges, zipRanges_length]
    rw [hlen.1, hlen.2.1]
    simp only [List.length_map, List.length_zip]
    omega
  refine ⟨(RangeParts.mk (makeGenericRangeParts map ranges).mins
      (makeGenericRangeParts map ranges).maxes
      ((svs.zip tvs).map (fun p => Value.cst (p.1 * p.2)))).makeRanges,
    by simp only [makeGenericLoopRanges, htile], by rw [hout], ?_⟩
  rw [hout]
  omega

/-- C10 witness: a two-result map tiled with a single tile size yields one
range value without error. -/
theorem makeGenericLoopRanges_truncates_witness :
    ∃ out, makeGenericLoopRanges ⟨2, 0, [.dim 0, .dim 1]⟩
        [⟨.leaf 0, .leaf 1, .cst 2⟩, ⟨.leaf 2, .leaf 3, .cst 3⟩]
        (some [.cst 4]) = .ok out ∧
      out.length = 1 ∧ out.length <
        (AffineMap.mk 2 0 [.dim 0, .dim 1]).numResults := by
  have h := makeGenericLoopRanges_truncates ⟨2, 0, [.dim 0, .dim 1]⟩
    [⟨.leaf 0, .leaf 1, .cst 2⟩, ⟨.leaf 2, .leaf 3, .cst 3⟩] [2, 3] [4]
    rfl (by intro s hs; simp at hs; rcases hs with h | h <;> subst h <;> norm_num)
    (by simp)
  obtain ⟨out, h1, h2, h3⟩ := h
  exact ⟨out, by simpa using h1, by simpa using h2, h3⟩

/-- Role of one loop dimension of a contraction. -/
inductive Role where
  | parallel
  | reduction
deriving DecidableEq, Repr

/-- Modelled from the spec: the loop structure emitted by the Loop-Nest
Synthesizer — a perfectly nested chain of `affine.for` loops, each carrying
its induction variable and range, around the single scalar-body invocation,
which receives the parallel and the reduction induction variables. -/
inductive Nest where
  | body (parallelArgs reductionArgs : List Nat)
  | forLoop (iv : Nat) (r : RangeVal) (inner : Nest)
deriving Repr

/-- Modelled from the spec: `LoopNestRangeBuilder` (external EDSC builder)
creates one loop per (induction variable, range) pair, nested left to
right, around the given innermost structure. -/
def loopNestRangeBuilder : List (Nat × RangeVal) → Nest → Nest
  | [], inner => inner
  | (iv, r) :: rest, inner => .forLoop iv r (loopNestRangeBuilder rest inner)

/-- A contraction operation as the synthesizer consumes it: parallel and
reduction dimension counts, the operand-ranges-to-loops affine map, and the
operand ranges (`getRanges`). -/
structure Contraction where
  numParallelDims : Nat
  numReductionDims : Nat
  loopsMap : AffineMap
  ranges : List RangeVal

/-- `ArrayRef::take_front`. -/
def takeFront (l : List RangeVal) (n : Nat) : List RangeVal := l.take n

/-- `ArrayRef::take_back`. -/
def takeBack (l : List RangeVal) (n : Nat) : List RangeVal :=
  l.drop (l.length - n)

/-- `writeAsLoops` from the source, with the externally-provided pieces
modelled from the spec: loop ranges are derived untiled
(`makeGenericLoopRanges` with no tile sizes, which never fails), fresh
induction variables are numbered `0..P-1` (parallel) and `P..P+R-1`
(reduction), the parallel nest is built over the first `P` ranges and the
reduction nest over the last `R` ranges around the single
`emitScalarImplementation` call, and the returned descriptors are the
parallel loops in declaration order followed by the reduction loops in
declaration order. -/
def writeAsLoops (c : Contraction) : Nest × List (Nat × Role) :=
  let loopRanges := makeGenericRanges c.loopsMap c.ranges
  let parallelIvs := List.range c.numParallelDims
  let reductionIvs :=
    (List.range c.numReductionDims).map (c.numParallelDims + ·)
  let nest :=
    loopNestRangeBuilder
      (parallelIvs.zip (takeFront loopRanges parallelIvs.length))
      (loopNestRangeBuilder
        (reductionIvs.zip (takeBack loopRanges reductionIvs.length))
        (.body parallelIvs reductionIvs))
  (nest, parallelIvs.map (fun iv => (iv, Role.parallel)) ++
    reductionIvs.map (fun iv => (iv, Role.reduction)))

/-- Number of scalar-body invocations in a nest. -/
def bodyCount : Nest → Nat
  | .body _ _ => 1
  | .forLoop _ _ inner => bodyCount inner

/-- Induction variables along the nest spine, outermost first. -/
def loopIvs : Nest → List Nat
  | .body _ _ => []
  | .forLoop iv _ inner => iv :: loopIvs inner

/-- Ranges along the nest spine, outermost first. -/
def loopRangesOf : Nest → List RangeVal
  | .body _ _ => []
  | .forLoop _ r inner => r :: loopRangesOf inner

/-- The argument lists received by the innermost scalar-body invocation. -/
def innerBody : Nest → List Nat × List Nat
  | .body p r => (p, r)
  | .forLoop _ _ inner => innerBody inner

theorem bodyCount_builder (l : List (Nat × RangeVal)) (inner : Nest) :
    bodyCount (loopNestRangeBuilder l inner) = bodyCount inner := by
  induction l with
  | nil => rfl
  | cons p rest ih => simp [loopNestRangeBuilder, bodyCount, ih]

theorem loopIvs_builder (l : List (Nat × RangeVal)) (inner : Nest) :
    loopIvs (loopNestRangeBuilder l inner) =
      l.map Prod.fst ++ loopIvs inner := by
  induction l with
  | nil => rfl
  | cons p rest ih => simp [loopNestRangeBuilder, loopIvs, ih]

theorem loopRangesOf_builder (l : List (Nat × RangeVal)) (inner : Nest) :
    loopRangesOf (loopNestRangeBuilder l inner) =
      l.map Prod.snd ++ loopRangesOf inner := by
  induction l with
  | nil => rfl
  | cons p rest ih => simp [loopNestRangeBuilder, loopRangesOf, ih]

theorem innerBody_builder (l : List (Nat × RangeVal)) (inner : Nest) :
    innerBody (loopNestRangeBuilder l inner) = innerBody inner := by
  induction l with
  | nil => rfl
  | cons p rest ih => simp [loopNestRangeBuilder, innerBody, ih]

/-- C2: for a contraction with P parallel and R reduction dimensions (the
source asserts that derivation yields P+R loop ranges), `writeAsLoops`
returns exactly P+R loop descriptors — the P parallel ones first, in
declaration order, then the R reduction ones, in declaration order — and
the emitted nest invokes the scalar body exactly once, at the innermost
position below all P+R loops (parallel outermost, reduction inner, carrying
the derived ranges in order), passing all P parallel induction variables in
order followed by all R reduction induction variables in order. -/
theorem writeAsLoops_correct (c : Contraction)
    (h : (makeGenericRanges c.loopsMap c.ranges).length =
      c.numParallelDims + c.numReductionDims) :
    (writeAsLoops c).2 =
        (List.range c.numParallelDims).map (fun iv => (iv, Role.parallel)) ++
          ((List.range c.numReductionDims).map (c.numParallelDims + ·)).map
            (fun iv => (iv, Role.reduction)) ∧
    (writeAsLoops c).2.length = c.numParallelDims + c.numReductionDims ∧
    bodyCount (writeAsLoops c).1 = 1 ∧
    innerBody (writeAsLoops c).1 =
      (List.range c.numParallelDims,
        (List.range c.numReductionDims).map (c.numParallelDims + ·)) ∧
    loopIvs (writeAsLoops c).1 =
      List.range c.numParallelDims ++
        (List.range c.numReductionDims).map (c.numParallelDims + ·) ∧
    loopRangesOf (writeAsLoops c).1 = makeGenericRanges c.loopsMap c.ranges := by
  have hfront : (takeFront (makeGenericRanges c.loopsMap c.ranges)
      (List.range c.numParallelDims).length).length =
      c.numParallelDims := by
    simp [takeFront, h]
  have hback : (takeBack (makeGenericRanges c.loopsMap c.ranges)
      ((List.range c.numReductionDims).map (c.numParallelDims + ·)).length).length =
      c.numReductionDims := by
    simp [takeBack, h]
  refine ⟨rfl, by simp [writeAsLoops], ?_, ?_, ?_, ?_⟩
  · show bodyCount (loopNestRangeBuilder _ (loopNestRangeBuilder _ _)) = 1
    rw [bodyCount_builder, bodyCount_builder]
    rfl
  · show innerBody (loopNestRangeBuilder _ (loopNestRangeBuilder _ _)) = _
    rw [innerBody_builder, innerBody_builder]
    rfl
  · show loopIvs (loopNestRangeBuilder _ (loopNestRangeBuilder _ _)) = _
    rw [loopIvs_builder, loopIvs_builder]
    rw [List.map_fst_zip _ _ (by rw [hfront]; simp),
      List.map_fst_zip _ _ (by rw [hback]; simp)]
    simp [loopIvs]
  · show loopRangesOf (loopNestRangeBuilder _ (loopNestRangeBuilder _ _)) = _
    rw [loopRangesOf_builder, loopRangesOf_builder]
    rw [List.map_snd_zip _ _ (by rw [hfront]; simp),
      List.map_snd_zip _ _ (by rw [hback]; simp)]
    simp only [takeFront, takeBack, loopRangesOf, List.append_nil]
    rw [h]
    simp only [List.length_map, List.length_range]
    have : c.numParallelDims + c.numReductionDims - c.numReductionDims =
        c.numParallelDims := by omega
    rw [this, List.take_append_drop]

/-- C2 witness: a 1-parallel/1-reduction contraction over the identity map
yields two descriptors (parallel then reduction), one body invocation at
depth two, and the derived ranges on the spine. -/
theorem writeAsLoops_correct_witness :
    (writeAsLoops ⟨1, 1, ⟨2, 0, [.dim 0, .dim 1]⟩,
        [⟨.leaf 0, .leaf 1, .cst 1⟩, ⟨.leaf 2, .leaf 3, .cst 1⟩]⟩).2 =
      [(0, Role.parallel), (1, Role.reduction)] ∧
    bodyCount (writeAsLoops ⟨1, 1, ⟨2, 0, [.dim 0, .dim 1]⟩,
        [⟨.leaf 0, .leaf 1, .cst 1⟩, ⟨.leaf 2, .leaf 3, .cst 1⟩]⟩).1 = 1 ∧
    innerBody (writeAsLoops ⟨1, 1, ⟨2, 0, [.dim 0, .dim 1]⟩,
        [⟨.leaf 0, .leaf 1, .cst 1⟩, ⟨.leaf 2, .leaf 3, .cst 1⟩]⟩).1 =
      ([0], [1]) ∧
    loopIvs (writeAsLoops ⟨1, 1, ⟨2, 0, [.dim 0, .dim 1]⟩,
        [⟨.leaf 0, .leaf 1, .cst 1⟩, ⟨.leaf 2, .leaf 3, .cst 1⟩]⟩).1 =
      [0, 1] := by
  have h := writeAsLoops_correct ⟨1, 1, ⟨2, 0, [.dim 0, .dim 1]⟩,
    [⟨.leaf 0, .leaf 1, .cst 1⟩, ⟨.leaf 2, .leaf 3, .cst 1⟩]⟩ rfl
  refine ⟨?_, h.2.2.1, ?_, ?_⟩
  · rw [h.1]
    rfl
  · rw [h.2.2.2.1]
    rfl
  · rw [h.2.2.2.2.1]
    rfl

/-- Modelled from the spec: the view-producing and view-consuming
operations seen by the slice-composition pass (`ViewOp`, `SliceOp`, the
fully composed view produced by the external `createFullyComposedView`, and
opaque consumers referencing values by id).  A slice narrows its operand
view at one dimension by one index value. -/
inductive VOp where
  | viewOp
  | sliceOp (operand : Nat) (dim : Nat) (idx : Int)
  | composedViewOp (root : Nat) (fixed : List (Nat × Int))
  | otherOp (operands : List Nat)
deriving DecidableEq, Repr

/-- A function body: result ids paired with their defining operations, in
program order (defs precede uses; a flat body, so post-order visitation is
program order). -/
abbrev IRFunc := List (Nat × VOp)

/-- Look up the defining operation of a value id. -/
def lookupOp (f : IRFunc) (id : Nat) : Option VOp :=
  (f.find? (fun e => e.1 == id)).map (·.2)

/-- Resolve the view chain of value `id` back to its root: the root view id
and the accumulated slice coordinates, outermost slice last.  The index
semantics of a view-like value are exactly this pair.  Fuel bounds the
chain length. -/
def resolveView (f : IRFunc) : Nat → Nat → Option (Nat × List (Nat × Int))
  | 0, _ => none
  | fuel + 1, id =>
    match lookupOp f id with
    | some .viewOp => some (id, [])
    | some (.composedViewOp r fx) => some (r, fx)
    | some (.sliceOp o d x) =>
        (resolveView f fuel o).map (fun p => (p.1, p.2 ++ [(d, x)]))
    | _ => none

/-- Value `id` resolves to view semantics `s` (with some fuel). -/
def Resolves (f : IRFunc) (id : Nat) (s : Nat × List (Nat × Int)) : Prop :=
  ∃ fuel, resolveView f fuel id = some s

/-- Slice-operation discriminator. -/
def isSlice : VOp → Bool
  | .sliceOp _ _ _ => true
  | _ => false

/-- One visit of the walk: a slice operation is replaced by the fully
composed view equivalent to its resolved chain (`createFullyComposedView` +
`replaceAllUsesWith` + `erase`, the new op taking over the erased value's
id); any other operation is left untouched.  An unresolvable chain is a
fatal precondition violation. -/
def composeSliceStep (f : IRFunc) (entry : Nat × VOp) :
    Except TransformErr (Nat × VOp) :=
  match entry.2 with
  | .sliceOp _ _ _ =>
      match resolveView f f.length entry.1 with
      | some p => .ok (entry.1, .composedViewOp p.1 p.2)
      | none => .error .unrecognizedOperand
  | op => .ok (entry.1, op)

/-- The walk: visit each operation in program order, each step resolving
against the current (partially rewritten) function. -/
def composeGo : IRFunc → IRFunc → Except TransformErr IRFunc
  | done, [] => .ok done
  | done, entry :: rest =>
    match composeSliceStep (done ++ entry :: rest) entry with
    | .ok e => composeGo (done ++ [e]) rest
    | .error err => .error err

/-- `composeSliceOps` from the source: walk the function post-order and
rewrite every slice operation into its fully composed view. -/
def composeSliceOps (f : IRFunc) : Except TransformErr IRFunc :=
  composeGo [] f

theorem resolveView_mono (f : IRFunc) (n : Nat) :
    ∀ m id s, n ≤ m → resolveView f n id = some s →
      resolveView f m id = some s := by
  induction n with
  | zero => intro m id s _ h; simp [resolveView] at h
  | succ n ih =>
      intro m id s hnm h
      cases m with
      | zero => omega
      | succ m =>
          simp only [resolveView] at h ⊢
          cases hl : lookupOp f id with
          | none =>
              rw [hl] at h
              have h' : (none : Option (Nat × List (Nat × Int))) = some s := h
              exact absurd h' (by simp)
          | some op =>
              rw [hl] at h
              cases op with
              | viewOp => exact h
              | composedViewOp r fx => exact h
              | sliceOp o d x =>
                  show (resolveView f m o).map
                    (fun p => (p.1, p.2 ++ [(d, x)])) = some s
                  have h' : (resolveView f n o).map
                      (fun p => (p.1, p.2 ++ [(d, x)])) = some s := h
                  cases hro : resolveView f n o with
                  | none =>
                      rw [hro] at h'
                      exact absurd h' (by simp)
                  | some p =>
                      rw [hro] at h'
                      rw [ih m o p (by omega) hro]
                      exact h'
              | otherOp ops =>
                  have h' : (none : Option (Nat × List (Nat × Int))) =
                    some s := h
                  exact absurd h' (by simp)

theorem resolves_det (f : IRFunc) (id : Nat) (s s' : Nat × List (Nat × Int))
    (h : Resolves f id s) (h' : Resolves f id s') : s = s' := by
  obtain ⟨n, hn⟩ := h
  obtain ⟨m, hm⟩ := h'
  have h1 := resolveView_mono f n (max n m) id s (Nat.le_max_left n m) hn
  have h2 := resolveView_mono f m (max n m) id s' (Nat.le_max_right n m) hm
  rw [h1] at h2
  exact Option.some.inj h2

theorem lookupOp_mid_ne (f₁ f₂ : IRFunc) (i : Nat) (o o' : VOp) (id : Nat)
    (hne : id ≠ i) :
    lookupOp (f₁ ++ (i, o) :: f₂) id = lookupOp (f₁ ++ (i, o') :: f₂) id := by
  induction f₁ with
  | nil =>
      simp only [List.nil_append, lookupOp]
      rw [List.find?_cons_of_neg _ (by simp [Ne.symm hne]),
        List.find?_cons_of_neg _ (by simp [Ne.symm hne])]
  | cons e es ih =>
      simp only [List.cons_append, lookupOp]
      cases he : (e.1 == id) with
      | true =>
          rw [List.find?_cons_of_pos _ (by simp [he]),
            List.find?_cons_of_pos _ (by simp [he])]
      | false =>
          rw [List.find?_cons_of_neg _ (by simp [he]),
            List.find?_cons_of_neg _ (by simp [he])]
          simpa [lookupOp] using ih

theorem lookupOp_mid_eq (f₁ f₂ : IRFunc) (i : Nat) (o : VOp)
    (hnotin : i ∉ f₁.map Prod.fst) :
    lookupOp (f₁ ++ (i, o) :: f₂) i = some o := by
  induction f₁ with
  | nil =>
      simp only [List.nil_append, lookupOp]
      rw [List.find?_cons_of_pos _ (by simp)]
      rfl
  | cons e es ih =>
      simp only [List.map_cons, List.mem_cons] at hnotin
      push_neg at hnotin
      simp only [List.cons_append, lookupOp]
      rw [List.find?_cons_of_neg _ (by simp [Ne.symm hnotin.1])]
      simpa [lookupOp] using ih hnotin.2

theorem resolves_replace_aux (f₁ f₂ : IRFunc) (i : Nat) (o₁ : VOp)
    (sem : Nat × List (Nat × Int))
    (hnotin : i ∉ f₁.map Prod.fst)
    (hsem : Resolves (f₁ ++ (i, o₁) :: f₂) i sem) :
    ∀ n id s, resolveView (f₁ ++ (i, o₁) :: f₂) n id = some s →
      Resolves (f₁ ++ (i, .composedViewOp sem.1 sem.2) :: f₂) id s := by
  intro n
  induction n with
  | zero => intro id s h; simp [resolveView] at h
  | succ n ih =>
      intro id s h
      by_cases hid : id = i
      · subst hid
        have hss : s = sem := resolves_det _ _ _ _ ⟨n + 1, h⟩ hsem
        subst hss
        refine ⟨1, ?_⟩
        simp only [resolveView]
        rw [lookupOp_mid_eq f₁ f₂ id (.composedViewOp s.1 s.2) hnotin]
      · simp only [resolveView] at h
        have hlk : lookupOp (f₁ ++ (i, VOp.composedViewOp sem.1 sem.2) :: f₂)
            id = lookupOp (f₁ ++ (i, o₁) :: f₂) id :=
          (lookupOp_mid_ne f₁ f₂ i o₁ (.composedViewOp sem.1 sem.2) id
            hid).symm
        cases hl : lookupOp (f₁ ++ (i, o₁) :: f₂) id with
        | none =>
            rw [hl] at h
            have h' : (none : Option (Nat × List (Nat × Int))) = some s := h
            exact absurd h' (by simp)
        | some op =>
            rw [hl] at h
            cases op with
            | viewOp =>
                have h' : some (id, ([] : List (Nat × Int))) = some s := h
                refine ⟨1, ?_⟩
                simp only [resolveView]
                rw [hlk, hl]
                exact h'
            | composedViewOp r fx =>
                have h' : some (r, fx) = some s := h
                refine ⟨1, ?_⟩
                simp only [resolveView]
                rw [hlk, hl]
                exact h'
            | sliceOp o d x =>
                have h' : (resolveView (f₁ ++ (i, o₁) :: f₂) n o).map
                    (fun p => (p.1, p.2 ++ [(d, x)])) = some s := h
                cases hro : resolveView (f₁ ++ (i, o₁) :: f₂) n o with
                | none =>
                    rw [hro] at h'
                    exact absurd h' (by simp)
                | some p =>
                    rw [hro] at h'
                    obtain ⟨m, hm⟩ := ih o p hro
                    refine ⟨m + 1, ?_⟩
                    simp only [resolveView]
                    rw [hlk, hl]
                    show (resolveView
                        (f₁ ++ (i, VOp.composedViewOp sem.1 sem.2) :: f₂) m
                        o).map (fun p => (p.1, p.2 ++ [(d, x)])) = some s
                    rw [hm]
                    exact h'
            | otherOp ops =>
                have h' : (none : Option (Nat × List (Nat × Int))) = some s := h
                exact absurd h' (by simp)

theorem composeSliceStep_not_slice (f : IRFunc) (eid : Nat) (eop : VOp)
    (h : isSlice eop = false) :
    composeSliceStep f (eid, eop) = .ok (eid, eop) := by
  cases eop with
  | viewOp => rfl
  | sliceOp o d x => simp [isSlice] at h
  | composedViewOp r fx => rfl
  | otherOp ops => rfl

theorem composeGo_spec (todo : IRFunc) :
    ∀ done out : IRFunc,
      ((done ++ todo).map Prod.fst).Nodup →
      (∀ e ∈ done, isSlice e.2 = false) →
      composeGo done todo = .ok out →
      (∀ e ∈ out, isSlice e.2 = false) ∧
      (∀ e ∈ done ++ todo, isSlice e.2 = false → e ∈ out) ∧
      (∀ id s, Resolves (done ++ todo) id s → Resolves out id s) ∧
      (∀ id o d x, (id, VOp.sliceOp o d x) ∈ todo →
        ∀ s, Resolves (done ++ todo) id s →
          (id, VOp.composedViewOp s.1 s.2) ∈ out) := by
  induction todo with
  | nil =>
      intro done out _ hdone h
      simp only [composeGo] at h
      have hde : done = out := by
        injection h
      subst hde
      refine ⟨hdone, ?_, ?_, ?_⟩
      · intro e he _
        simpa using he
      · intro id s hs
        simpa using hs
      · intro id o d x hmem
        simp at hmem
  | cons entry rest ih =>
      obtain ⟨eid, eop⟩ := entry
      intro done out hnd hdone h
      simp only [composeGo] at h
      cases hsl : isSlice eop with
      | false =>
          rw [composeSliceStep_not_slice _ _ _ hsl] at h
          have h' : composeGo (done ++ [(eid, eop)]) rest = .ok out := h
          have hassoc : done ++ (eid, eop) :: rest =
              (done ++ [(eid, eop)]) ++ rest := by simp
          have hnd' : (((done ++ [(eid, eop)]) ++ rest).map Prod.fst).Nodup := by
            rw [← hassoc]
            exact hnd
          have hdone' : ∀ e ∈ done ++ [(eid, eop)], isSlice e.2 = false := by
            intro e he
            rcases List.mem_append.mp he with he | he
            · exact hdone e he
            · simp at he
              subst he
              exact hsl
          obtain ⟨ha, hb, hc, hd⟩ := ih (done ++ [(eid, eop)]) out hnd' hdone' h'
          refine ⟨ha, ?_, ?_, ?_⟩
          · intro e he hs
            exact hb e (hassoc ▸ he) hs
          · intro id s hs
            exact hc id s (hassoc ▸ hs)
          · intro id o d x hmem s hs
            rcases List.mem_cons.mp hmem with heq | hmem2
            · have h2 : VOp.sliceOp o d x = eop := congrArg Prod.snd heq
              rw [← h2] at hsl
              simp [isSlice] at hsl
            · exact hd id o d x hmem2 s (hassoc ▸ hs)
      | true =>
          cases eop with
          | viewOp => simp [isSlice] at hsl
          | composedViewOp r fx => simp [isSlice] at hsl
          | otherOp ops => simp [isSlice] at hsl
          | sliceOp o0 d0 x0 =>
              simp only [composeSliceStep] at h
              cases hres : resolveView (done ++ (eid, .sliceOp o0 d0 x0) :: rest)
                  (done ++ (eid, .sliceOp o0 d0 x0) :: rest).length eid with
              | none =>
                  rw [hres] at h
                  have h' : (Except.error TransformErr.unrecognizedOperand :
                      Except TransformErr IRFunc) = .ok out := h
                  exact absurd h' (by simp)
              | some p =>
                  rw [hres] at h
                  have h' : composeGo
                      (done ++ [(eid, VOp.composedViewOp p.1 p.2)]) rest =
                      .ok out := h
                  have hmap : ((done ++ (eid, VOp.sliceOp o0 d0 x0) :: rest).map
                      Prod.fst) =
                      done.map Prod.fst ++ eid :: rest.map Prod.fst := by simp
                  have hnotin : eid ∉ done.map Prod.fst := by
                    intro hmem
                    have hnd0 := hnd
                    rw [hmap] at hnd0
                    exact (List.nodup_append.mp hnd0).2.2 hmem
                      (List.mem_cons_self _ _)
                  have hsem : Resolves
                      (done ++ (eid, VOp.sliceOp o0 d0 x0) :: rest) eid p :=
                    ⟨_, hres⟩
                  have hpres : ∀ id s,
                      Resolves (done ++ (eid, VOp.sliceOp o0 d0 x0) :: rest)
                        id s →
                      Resolves (done ++ (eid, VOp.composedViewOp p.1 p.2) ::
                        rest) id s := by
                    rintro id s ⟨n, hn⟩
                    exact resolves_replace_aux done rest eid
                      (VOp.sliceOp o0 d0 x0) p hnotin hsem n id s hn
                  have hassoc : done ++ (eid, VOp.composedViewOp p.1 p.2) ::
                      rest =
                      (done ++ [(eid, VOp.composedViewOp p.1 p.2)]) ++ rest := by
                    simp
                  have hnd' : (((done ++ [(eid, VOp.composedViewOp p.1 p.2)]) ++
                      rest).map Prod.fst).Nodup := by
                    rw [← hassoc]
                    have hids : ((done ++ (eid, VOp.composedViewOp p.1 p.2) ::
                        rest).map Prod.fst) =
                        ((done ++ (eid, VOp.sliceOp o0 d0 x0) :: rest).map
                          Prod.fst) := by
                      simp
                    rw [hids]
                    exact hnd
                  have hdone' : ∀ e ∈ done ++ [(eid, VOp.composedViewOp p.1 p.2)],
                      isSlice e.2 = false := by
                    intro e he
                    rcases List.mem_append.mp he with he | he
                    · exact hdone e he
                    · simp at he
                      subst he
                      rfl
                  obtain ⟨ha, hb, hc, hd⟩ :=
                    ih (done ++ [(eid, VOp.composedViewOp p.1 p.2)]) out hnd'
                      hdone' h'
                  refine ⟨ha, ?_, ?_, ?_⟩
                  · intro e he hs
                    rcases List.mem_append.mp he with he | he
                    · exact hb e (hassoc ▸ List.mem_append.mpr (Or.inl he)) hs
                    · rcases List.mem_cons.mp he with heq | he2
                      · subst heq
                        simp [isSlice] at hs
                      · exact hb e (hassoc ▸ List.mem_append.mpr (Or.inr
                          (List.mem_cons.mpr (Or.inr he2)))) hs
                  · intro id s hs
                    exact hc id s (hassoc ▸ hpres id s hs)
                  · intro id o d x hmem s hs
                    rcases List.mem_cons.mp hmem with heq | hmem2
                    · have h1 : id = eid := congrArg Prod.fst heq
                      subst h1
                      have hsp : s = p := resolves_det _ _ _ _ hs hsem
                      subst hsp
                      exact hb (id, VOp.composedViewOp s.1 s.2)
                        (hassoc ▸ List.mem_append.mpr (Or.inr
                          (List.mem_cons_self _ _))) rfl
                    · exact hd id o d x hmem2 s (hassoc ▸ hpres id s hs)

/-- C6: when the slice-composition pass succeeds on a function with
distinct value ids, zero slice operations remain in the result; every
non-slice operation (in particular every consumer) is preserved verbatim,
so each former slice consumer reads the same value ids; every id that
resolved to some view semantics before still resolves to exactly those
semantics; and every value previously defined by a slice is now defined by
one single fully composed view whose index semantics equal the original
resolved slice chain. -/
theorem composeSliceOps_correct (f out : IRFunc)
    (hnd : (f.map Prod.fst).Nodup)
    (h : composeSliceOps f = .ok out) :
    (∀ e ∈ out, isSlice e.2 = false) ∧
    (∀ e ∈ f, isSlice e.2 = false → e ∈ out) ∧
    (∀ id s, Resolves f id s → Resolves out id s) ∧
    (∀ id o d x, (id, VOp.sliceOp o d x) ∈ f →
      ∀ s, Resolves f id s → (id, VOp.composedViewOp s.1 s.2) ∈ out) := by
  have hspec := composeGo_spec f [] out (by simpa using hnd) (by simp) h
  simpa using hspec

/-- C6 witness: a view, a slice of it, and a consumer; after the pass the
slice has become the composed view with the resolved chain semantics and
the consumer is untouched. -/
theorem composeSliceOps_correct_witness :
    isSlice (VOp.composedViewOp 0 [(0, 5)]) = false ∧
    ((1 : Nat), VOp.composedViewOp 0 [(0, 5)]) ∈
      ([(0, VOp.viewOp), (1, VOp.composedViewOp 0 [(0, 5)]),
        (2, VOp.otherOp [1])] : IRFunc) ∧
    ((2 : Nat), VOp.otherOp [1]) ∈
      ([(0, VOp.viewOp), (1, VOp.composedViewOp 0 [(0, 5)]),
        (2, VOp.otherOp [1])] : IRFunc) := by
  have h := composeSliceOps_correct
    [(0, .viewOp), (1, .sliceOp 0 0 5), (2, .otherOp [1])]
    [(0, .viewOp), (1, .composedViewOp 0 [(0, 5)]), (2, .otherOp [1])]
    (by decide) rfl
  refine ⟨rfl, ?_, ?_⟩
  · exact h.2.2.2 1 0 0 5 (by simp) (0, [(0, 5)]) ⟨2, rfl⟩
  · exact h.2.1 (2, VOp.otherOp [1]) (by simp) rfl

end Linalg
